import Mathlib

set_option maxRecDepth 16000

/-!
Shallow embedding of the knut plain-text accounting core.

The definitions below translate the Go sources of the repository:
  * `lib/ledger/ledger.go` — the ledger data model (`Day`, `Ledger`, `Posting`,
    `NewPosting`, `Transaction`, `Accrual.Expand`, `Ledger.MinDate`,
    `Ledger.MaxDate`, `Ledger.Dates`, `isAL`, `isIE`),
  * the `balance` package (`Balance`, `Balance.Book`, `Balance.BookAmount`,
    `Balance.Minus`, `Diffs`, `CommodityAccount`, `CommodityAccount.Less`),
  * `lib/journal2/journal.go` — the journal builder (`Journal`, `Journal.AddOpen`,
    `Journal.AddPrice`, `Journal.AddTransaction`, `Journal.AddAssertion`,
    `Journal.AddClose`, `Journal.Period`).

Modelling conventions:
  * Go strings are modelled as `List Char`; Go's byte-wise `<` on strings is the
    explicit lexicographic comparison `strLt`.
  * `time.Time` dates are modelled as natural numbers (`yyyymmdd` encoding in
    concrete examples); `time.Time{}` is `0`, `date.Date(9999,12,31)` is
    `99991231`.  Only ordering of dates matters to the translated code.
  * `shopspring/decimal` exact decimals are modelled as `ℚ`; `QuoRem` is
    translated from the library's documented contract (`d = d2*q + r`, `q` an
    integer multiple of `10^(-precision)`, `r` with the sign of `d`), with the
    quotient truncated towards zero as the library computes it.
  * Go maps with zero-valued reads for missing keys are modelled as total
    functions with default `0` (for amounts/values) or `none`/`false`.
-/

/-- Modelled from the spec: the account types, in the spec's enumeration order
`{Assets, Liabilities, Equity, Income, Expenses}` (the Go enum lives in the
accounts file, which is not among the provided sources). -/
inductive AccountType where
  | assets
  | liabilities
  | equity
  | income
  | expenses
deriving DecidableEq, Inhabited

/-- The integer value of the account-type enum, used by Go's `<` comparison. -/
def AccountType.ord : AccountType → Nat
  | .assets => 0
  | .liabilities => 1
  | .equity => 2
  | .income => 3
  | .expenses => 4

/-- Modelled from the spec: an interned account.  Interning makes pointer
equality coincide with name equality, so an account is represented by its name
(a Go string, i.e. a char list) together with its type, which the source
derives from the first name segment. -/
structure Account where
  t : AccountType
  name : List Char
deriving DecidableEq, Inhabited

/-- Modelled from the spec: an interned commodity, represented by its code. -/
structure Commodity where
  code : List Char
deriving DecidableEq, Inhabited

/-- Go's byte-wise `<` comparison on strings (strings as char lists). -/
def strLt : List Char → List Char → Bool
  | [], [] => false
  | [], _ :: _ => true
  | _ :: _, [] => false
  | a :: as, b :: bs => if a < b then true else if b < a then false else strLt as bs

/-- `isAL` from `lib/ledger/ledger.go`: asset or liability account. -/
def isAL (a : Account) : Bool :=
  a.t == AccountType.assets || a.t == AccountType.liabilities

/-- `isIE` from `lib/ledger/ledger.go`: income or expenses account. -/
def isIE (a : Account) : Bool :=
  a.t == AccountType.income || a.t == AccountType.expenses

/-- `CommodityAccount` from the balance package: a position key. -/
structure CommodityAccount where
  account : Account
  commodity : Commodity
deriving DecidableEq, Inhabited

/-- `CommodityAccount.Less` from the balance package: compare account types,
then account names, then commodity codes. -/
def CommodityAccount.Less (p p1 : CommodityAccount) : Bool :=
  if p.account.t ≠ p1.account.t then decide (p.account.t.ord < p1.account.t.ord)
  else if p.account.name ≠ p1.account.name then strLt p.account.name p1.account.name
  else strLt p.commodity.code p1.commodity.code

/-- `Lot` from `lib/ledger/ledger.go`.  The `Price float64` field is not
modelled (binary floating point); no claim refers to it. -/
structure Lot where
  date : Nat
  label : List Char
  commodity : Commodity
deriving DecidableEq, Inhabited

/-- `Posting` from `lib/ledger/ledger.go`. -/
structure Posting where
  amount : ℚ
  value : ℚ
  credit : Account
  debit : Account
  commodity : Commodity
  lot : Option Lot
deriving DecidableEq, Inhabited

/-- `NewPosting` from `lib/ledger/ledger.go`: if the amount is negative, the
accounts are swapped and the amount inverted. -/
def NewPosting (crAccount drAccount : Account) (commodity : Commodity) (amt : ℚ) : Posting :=
  if amt < 0 then
    { amount := -amt, value := 0, credit := drAccount, debit := crAccount,
      commodity := commodity, lot := none }
  else
    { amount := amt, value := 0, credit := crAccount, debit := drAccount,
      commodity := commodity, lot := none }

/-- `Transaction` from `lib/ledger/ledger.go`.  The source `Range` (file
positions) is modelled as a plain string. -/
structure Transaction where
  range : List Char
  date : Nat
  description : List Char
  tags : List (List Char)
  postings : List Posting
deriving DecidableEq, Inhabited

/-- `Open` from `lib/ledger/ledger.go`. -/
structure Open where
  range : List Char
  date : Nat
  account : Account
deriving DecidableEq, Inhabited

/-- `Close` from `lib/ledger/ledger.go`. -/
structure Close where
  range : List Char
  date : Nat
  account : Account
deriving DecidableEq, Inhabited

/-- `Price` from `lib/ledger/ledger.go`. -/
structure Price where
  range : List Char
  date : Nat
  commodity : Commodity
  target : Commodity
  price : ℚ
deriving DecidableEq, Inhabited

/-- `Assertion` from `lib/ledger/ledger.go`. -/
structure Assertion where
  range : List Char
  date : Nat
  account : Account
  amount : ℚ
  commodity : Commodity
deriving DecidableEq, Inhabited

/-- `Value` from `lib/ledger/ledger.go`. -/
structure Value where
  range : List Char
  date : Nat
  account : Account
  amount : ℚ
  commodity : Commodity
deriving DecidableEq, Inhabited

/-- `Day` from `lib/ledger/ledger.go`: all directives of one date. -/
structure Day where
  date : Nat
  prices : List Price
  assertions : List Assertion
  values : List Value
  openings : List Open
  transactions : List Transaction
  closings : List Close
deriving DecidableEq, Inhabited

/-- `Ledger` from `lib/ledger/ledger.go`.  The `Context` (interning registry)
is omitted: interning is absorbed into the value representation of accounts
and commodities. -/
structure Ledger where
  days : List Day
deriving DecidableEq, Inhabited

/-- Loop body of `Ledger.MinDate`: the first day with a non-empty `Openings`
list supplies the date. -/
def minDateGo : List Day → Option Nat
  | [] => none
  | d :: ds => if d.openings.length > 0 then some d.date else minDateGo ds

/-- `Ledger.MinDate` from `lib/ledger/ledger.go`: the date of the first day on
which an account is opened; `none` models the `(time.Time{}, false)` return. -/
def Ledger.MinDate (l : Ledger) : Option Nat :=
  minDateGo l.days

/-- `Ledger.MaxDate` from `lib/ledger/ledger.go`: the date of the last day. -/
def Ledger.MaxDate (l : Ledger) : Option Nat :=
  match l.days.getLast? with
  | none => none
  | some d => some d.date

/-- `date.Period` from the date package (not among the provided sources);
the enumeration is taken from the spec's period list. -/
inductive Period where
  | days
  | weeks
  | months
  | quarters
  | years
  | once
deriving DecidableEq, Inhabited

/-- The type of the external `date.Series` function (its source file is not
among the provided sources; the spec only fixes that it emits the partition
endpoints, starting at the first element dropped by callers).  Definitions
below are parametric in it and theorems quantify over it. -/
abbrev SeriesFn := Nat → Nat → Period → List Nat

/-- `Accrual` from `lib/ledger/ledger.go`. -/
structure Accrual where
  range : List Char
  period : Period
  t0 : Nat
  t1 : Nat
  account : Account
  transaction : Transaction
deriving DecidableEq, Inhabited

/-- Truncation of a rational towards zero, as integer division of the decimal
library truncates. -/
def ratTrunc (x : ℚ) : ℤ :=
  Int.tdiv x.num (x.den : ℤ)

/-- `decimal.Decimal.QuoRem` of the shopspring decimal library, from its
documented contract: `d = d2 * q + r` with `q` an integer multiple of
`10^(-precision)` obtained by truncating `d/d2` towards zero at that scale.
(The library panics on a zero divisor; `ℚ` division by zero yields `q = 0`,
`r = d`; the theorems below never divide by zero.) -/
def quoRem (d d2 : ℚ) (precision : ℕ) : ℚ × ℚ :=
  let e : ℚ := 10 ^ precision
  let q : ℚ := (ratTrunc (d * e / d2) : ℚ) / e
  (q, d - d2 * q)

/-- The indexed loop `for i, x := range xs` starting at index `i`. -/
def mapWithIndexGo (f : Nat → α → β) : Nat → List α → List β
  | _, [] => []
  | i, x :: xs => f i x :: mapWithIndexGo f (i + 1) xs

/-- The indexed loop `for i, x := range xs`. -/
def mapWithIndex (f : Nat → α → β) (xs : List α) : List β :=
  mapWithIndexGo f 0 xs

/-- The `switch` of `Accrual.Expand` choosing
`(crSingle, drSingle, crMulti, drMulti)`: all four start out as the accrual's
split account, and the cases override them by the template posting's account
types. -/
def accrualAccounts (split : Account) (p : Posting) :
    Account × Account × Account × Account :=
  if isAL p.credit && isIE p.debit then (p.credit, split, split, p.debit)
  else if isIE p.credit && isAL p.debit then (split, p.debit, p.credit, split)
  else if isIE p.credit && isIE p.debit then (split, split, p.credit, p.debit)
  else (p.credit, p.debit, split, split)

/-- The `crAccountSingle` chosen by `Accrual.Expand`'s switch. -/
def crSingleOf (split : Account) (p : Posting) : Account :=
  (accrualAccounts split p).1

/-- The `drAccountSingle` chosen by `Accrual.Expand`'s switch. -/
def drSingleOf (split : Account) (p : Posting) : Account :=
  (accrualAccounts split p).2.1

/-- The `crAccountMulti` chosen by `Accrual.Expand`'s switch. -/
def crMultiOf (split : Account) (p : Posting) : Account :=
  (accrualAccounts split p).2.2.1

/-- The `drAccountMulti` chosen by `Accrual.Expand`'s switch. -/
def drMultiOf (split : Account) (p : Posting) : Account :=
  (accrualAccounts split p).2.2.2

/-- The partition dates used by `Accrual.Expand`:
`date.Series(a.T0, a.T1, a.Period)[1:]`. -/
def accrualDates (series : SeriesFn) (a : Accrual) : List Nat :=
  (series a.t0 a.t1 a.period).drop 1

/-- The `amount, rem := posting.Amount.QuoRem(len(dates), 1)` pair computed by
`Accrual.Expand`. -/
def accrualQR (series : SeriesFn) (a : Accrual) (p : Posting) : ℚ × ℚ :=
  quoRem p.amount ((accrualDates series a).length : ℚ) 1

/-- A concrete stand-in for `date.Series` on day-indexed dates, used to
evaluate the accrual expansion on concrete inputs: all dates from `t0` to
`t1` inclusive. -/
def sampleSeries : SeriesFn :=
  fun t0 t1 _ => List.range' t0 (t1 + 1 - t0)

/-- One multi-period transaction emitted by `Accrual.Expand` for index `i` and
date `d`; the first instalment (`i = 0`) carries the remainder. -/
def accrualTxn (a : Accrual) (p : Posting) (crM drM : Account) (n : Nat)
    (q r : ℚ) (i : Nat) (d : Nat) : Transaction :=
  { range := a.transaction.range
    date := d
    description := a.transaction.description ++ (" (accrual ".toList
      ++ (toString (i + 1)).toList ++ "/".toList ++ (toString n).toList ++ ")".toList)
    tags := a.transaction.tags
    postings := [NewPosting crM drM p.commodity (if i = 0 then q + r else q)] }

/-- The multi-period leg of `Accrual.Expand`: suppressed when the multi credit
and debit accounts coincide, otherwise one transaction per partition date with
the `QuoRem` quotient (plus remainder on the first date). -/
def accrualMulti (series : SeriesFn) (a : Accrual) (p : Posting)
    (crM drM : Account) : List Transaction :=
  if crM = drM then []
  else
    let dates := accrualDates series a
    let qr := quoRem p.amount (dates.length : ℚ) 1
    mapWithIndex (accrualTxn a p crM drM dates.length qr.1 qr.2) dates

/-- The single-period leg of `Accrual.Expand`: suppressed when its credit and
debit accounts coincide, otherwise one transaction at the template's date with
the full template amount. -/
def accrualSingle (a : Accrual) (p : Posting) (crS drS : Account) :
    List Transaction :=
  if crS = drS then []
  else
    [{ range := a.transaction.range
       date := a.transaction.date
       description := a.transaction.description
       tags := a.transaction.tags
       postings := [NewPosting crS drS p.commodity p.amount] }]

/-- `Accrual.Expand` from `lib/ledger/ledger.go`.  The source indexes
`t.Postings[0]` (panicking on an empty template); `headI` models the
non-empty case, which all theorems assume. -/
def Accrual.Expand (series : SeriesFn) (a : Accrual) : List Transaction :=
  let p := a.transaction.postings.headI
  match accrualAccounts a.account p with
  | (crS, drS, crM, drM) =>
      accrualMulti series a p crM drM ++ accrualSingle a p crS drS

/-- `Ledger.Dates` from `lib/ledger/ledger.go`: resolve the start date from
`from` or `MinDate`, the end date from `to` or `MaxDate`, and emit the series;
`nil` (here `[]`) if either bound is unavailable. -/
def Ledger.Dates (series : SeriesFn) (l : Ledger) (fromDate toDate : Option Nat)
    (p : Period) : List Nat :=
  match fromDate.orElse (fun _ => l.MinDate) with
  | none => []
  | some t0 =>
    match toDate.orElse (fun _ => l.MaxDate) with
    | none => []
    | some t1 => series t0 t1 p

/-- `Balance` from the balance package.  `Amounts` and `Values` are Go maps
with `0` for missing keys, modelled as total functions; `Accounts` is the
open-accounts set (its Go type lives in a file not among the provided sources;
modelled from the spec as a boolean predicate).  `Context`, `Valuation` and
`NormalizedPrices` are omitted: no claim refers to them. -/
structure Balance where
  date : Nat
  amounts : CommodityAccount → ℚ
  values : CommodityAccount → ℚ
  accounts : Account → Bool

instance : Inhabited Balance :=
  ⟨⟨0, fun _ => 0, fun _ => 0, fun _ => false⟩⟩

/-- `Balance.Book` from the balance package: subtract the amount at the credit
position, then add it at the debit position. -/
def Balance.Book (b : Balance) (cr dr : Account) (a : ℚ) (c : Commodity) :
    Balance :=
  let crPos : CommodityAccount := ⟨cr, c⟩
  let drPos : CommodityAccount := ⟨dr, c⟩
  let m1 := Function.update b.amounts crPos (b.amounts crPos - a)
  { b with amounts := Function.update m1 drPos (m1 drPos + a) }

/-- The balance `Error` of the balance package: the offending directive plus a
message. -/
structure BalanceError where
  directive : Transaction
  msg : List Char
deriving DecidableEq

/-- Loop of `Balance.BookAmount` over the postings: check that the credit and
debit accounts are open, then book, then move to the next posting. -/
def bookAmountGo (t : Transaction) : Balance → List Posting → Balance × Option BalanceError
  | b, [] => (b, none)
  | b, p :: ps =>
    if b.accounts p.credit = false then
      (b, some ⟨t, "credit account ".toList ++ p.credit.name ++ " is not open".toList⟩)
    else if b.accounts p.debit = false then
      (b, some ⟨t, "debit account ".toList ++ p.debit.name ++ " is not open".toList⟩)
    else
      bookAmountGo t (b.Book p.credit p.debit p.amount p.commodity) ps

/-- `Balance.BookAmount` from the balance package.  The Go method mutates the
receiver and returns an error; here it returns the (possibly partially
updated) balance together with the optional error. -/
def Balance.BookAmount (b : Balance) (t : Transaction) : Balance × Option BalanceError :=
  bookAmountGo t b t.postings

/-- Booking a list of postings unconditionally (the effect of `Balance.Book`
applied to each posting in order). -/
def bookPostings (b : Balance) (ps : List Posting) : Balance :=
  ps.foldl (fun b p => b.Book p.credit p.debit p.amount p.commodity) b

/-- Booking every posting of every transaction of a day, in order. -/
def bookTransactions (b : Balance) (ts : List Transaction) : Balance :=
  ts.foldl (fun b t => bookPostings b t.postings) b

/-- `Balance.Minus` from the balance package: pointwise subtraction of the
amounts and values maps (Go iterates the subtrahend's keys; absent keys read
as `0`, so this is the same function). -/
def Balance.Minus (b bo : Balance) : Balance :=
  { b with
    amounts := fun pos => b.amounts pos - bo.amounts pos
    values := fun pos => b.values pos - bo.values pos }

/-- `Diffs` from the balance package.  The Go function mutates the slice
downwards (`bals[i].Minus(bals[i-1])` for `i = len-1 .. 1`), so each
subtraction reads the unmutated predecessor, and returns `bals[1:]`:
entry `i` of the result is `bals[i+1] - bals[i]`. -/
def Diffs (bals : List Balance) : List Balance :=
  List.zipWith Balance.Minus (bals.drop 1) bals

/-- Modelled from the spec: `model.Open` of the journal2 data model (the
`lib/model` sources are not provided); only the date and account appear in
the spec's data model. -/
structure JOpen where
  date : Nat
  account : Account
deriving DecidableEq, Inhabited

/-- Modelled from the spec: `model.Price` of the journal2 data model. -/
structure JPrice where
  date : Nat
  commodity : Commodity
  target : Commodity
  price : ℚ
deriving DecidableEq, Inhabited

/-- Modelled from the spec: `model.Transaction` of the journal2 data model. -/
structure JTransaction where
  date : Nat
  description : List Char
  postings : List Posting
deriving DecidableEq, Inhabited

/-- Modelled from the spec: `model.Assertion` of the journal2 data model. -/
structure JAssertion where
  date : Nat
  account : Account
  amount : ℚ
  commodity : Commodity
deriving DecidableEq, Inhabited

/-- Modelled from the spec: `model.Close` of the journal2 data model. -/
structure JClose where
  date : Nat
  account : Account
deriving DecidableEq, Inhabited

/-- `Day` from `lib/journal2/journal.go` (named `JDay` here to keep it apart
from the ledger package's `Day`).  `Normalized` and `Performance` are omitted:
no claim refers to them. -/
structure JDay where
  date : Nat
  prices : List JPrice
  assertions : List JAssertion
  openings : List JOpen
  transactions : List JTransaction
  closings : List JClose
deriving DecidableEq, Inhabited

/-- An empty day record for the given date, as `dict.GetDefault` creates. -/
def emptyJDay (d : Nat) : JDay :=
  ⟨d, [], [], [], [], []⟩

/-- `Journal` from `lib/journal2/journal.go`: the day map plus the `min`/`max`
bounds.  The `Registry` is omitted (interning is absorbed into values). -/
structure Journal where
  days : Nat → Option JDay
  min : Nat
  max : Nat

/-- `journal.New`: empty day map, `min` seeded with `date.Date(9999,12,31)`
(encoded `99991231`), `max` with the zero `time.Time{}` (encoded `0`). -/
def Journal.new : Journal :=
  { days := fun _ => none, min := 99991231, max := 0 }

/-- `Journal.Day` from `lib/journal2/journal.go`: the day record for a date,
created empty on first access. -/
def Journal.DayAt (j : Journal) (d : Nat) : JDay :=
  (j.days d).getD (emptyJDay d)

/-- `Journal.AddOpen`: append to the day's openings.  The bounds are not
touched. -/
def Journal.AddOpen (j : Journal) (o : JOpen) : Journal :=
  let d := j.DayAt o.date
  { j with days := Function.update j.days o.date (some { d with openings := d.openings ++ [o] }) }

/-- `Journal.AddPrice`: append to the day's prices, raising `max` if the date
is beyond it.  `min` is not touched. -/
def Journal.AddPrice (j : Journal) (p : JPrice) : Journal :=
  let d := j.DayAt p.date
  { j with
    max := if j.max < d.date then d.date else j.max
    days := Function.update j.days p.date (some { d with prices := d.prices ++ [p] }) }

/-- `Journal.AddTransaction`: append to the day's transactions, raising `max`
and lowering `min` to cover the date. -/
def Journal.AddTransaction (j : Journal) (t : JTransaction) : Journal :=
  let d := j.DayAt t.date
  { j with
    max := if j.max < d.date then d.date else j.max
    min := if t.date < j.min then d.date else j.min
    days := Function.update j.days t.date (some { d with transactions := d.transactions ++ [t] }) }

/-- `Journal.AddAssertion`: append to the day's assertions.  The bounds are
not touched. -/
def Journal.AddAssertion (j : Journal) (a : JAssertion) : Journal :=
  let d := j.DayAt a.date
  { j with days := Function.update j.days a.date (some { d with assertions := d.assertions ++ [a] }) }

/-- `Journal.AddClose`: append to the day's closings.  The bounds are not
touched. -/
def Journal.AddClose (j : Journal) (c : JClose) : Journal :=
  let d := j.DayAt c.date
  { j with days := Function.update j.days c.date (some { d with closings := d.closings ++ [c] }) }

/-- The day-map invariant of the Go journal: a day record stored under a date
key carries that date (`Journal.Day` creates records with `Date: d` and every
mutation preserves the field). -/
def journalWF (j : Journal) : Prop :=
  ∀ k day, j.days k = some day → day.date = k

/-- The tagged directive variants consumed by the journal builder (`Create` in
`lib/journal2/journal.go`). -/
inductive MDirective where
  | mopen (o : JOpen)
  | mprice (p : JPrice)
  | mtransaction (t : JTransaction)
  | massertion (a : JAssertion)
  | mclose (c : JClose)
deriving DecidableEq

/-- The dispatch switch of `Create` in `lib/journal2/journal.go`. -/
def Journal.addDirective (j : Journal) : MDirective → Journal
  | .mprice p => j.AddPrice p
  | .mopen o => j.AddOpen o
  | .mtransaction t => j.AddTransaction t
  | .massertion a => j.AddAssertion a
  | .mclose c => j.AddClose c

/-- The journal builder: start from `journal.New` and consume the directive
stream in order. -/
def buildJournal (ds : List MDirective) : Journal :=
  ds.foldl Journal.addDirective Journal.new

/-- `Journal.Period` from `lib/journal2/journal.go`: the `(min, max)` interval. -/
def Journal.Period (j : Journal) : Nat × Nat :=
  (j.min, j.max)

/-- The amount of a transaction: the sum of its postings' amounts (the
expanded accrual transactions each carry exactly one posting). -/
def txnAmount (t : Transaction) : ℚ :=
  (t.postings.map Posting.amount).sum

/-- The sum of the amounts of a list of transactions. -/
def sumAmounts (ts : List Transaction) : ℚ :=
  (ts.map txnAmount).sum

/-- A two-element list of cumulative balances used to evaluate the difference
partitioner on concrete data. -/
def sampleBalances : List Balance :=
  [⟨0, fun _ => 2, fun _ => 3, fun _ => true⟩,
   ⟨1, fun _ => 7, fun _ => 9, fun _ => true⟩]

/-! ## Helper lemmas -/

theorem strLt_irrefl : ∀ s : List Char, strLt s s = false := by
  intro s
  induction s with
  | nil => rfl
  | cons a as ih => simp [strLt, ih]

theorem strLt_asymm : ∀ s t : List Char, strLt s t = true → strLt t s = false := by
  intro s
  induction s with
  | nil =>
    intro t h
    cases t with
    | nil => simp [strLt] at h
    | cons b bs => rfl
  | cons a as ih =>
    intro t h
    cases t with
    | nil => simp [strLt] at h
    | cons b bs =>
      simp only [strLt] at h ⊢
      rcases lt_trichotomy a b with hab | hab | hab
      · rw [if_neg (asymm hab), if_pos hab]
      · subst hab
        simp only [lt_irrefl, if_false] at h ⊢
        exact ih bs h
      · rw [if_neg (asymm hab), if_pos hab] at h
        exact absurd h (by simp)

theorem strLt_total : ∀ s t : List Char, s ≠ t → strLt s t = true ∨ strLt t s = true := by
  intro s
  induction s with
  | nil =>
    intro t h
    cases t with
    | nil => exact absurd rfl h
    | cons b bs => left; rfl
  | cons a as ih =>
    intro t h
    cases t with
    | nil => right; rfl
    | cons b bs =>
      rcases lt_trichotomy a b with hab | hab | hab
      · left; simp [strLt, hab]
      · subst hab
        have hne : as ≠ bs := fun hh => h (by rw [hh])
        rcases ih bs hne with h1 | h1
        · left; simp [strLt, h1]
        · right; simp [strLt, h1]
      · right; simp [strLt, hab, asymm hab]

theorem accountTypeOrd_inj : ∀ a b : AccountType, a.ord = b.ord → a = b := by
  intro a b
  cases a <;> cases b <;> simp [AccountType.ord]

/-! ## C6: posting normalization -/

/-- C6: `NewPosting` with a negative amount returns exactly the posting built
from the swapped accounts and negated amount, and the amount of any returned
posting is non-negative. -/
theorem newPosting_normalization (cr dr : Account) (c : Commodity) (amt : ℚ) :
    (amt < 0 → NewPosting cr dr c amt = NewPosting dr cr c (-amt)) ∧
    0 ≤ (NewPosting cr dr c amt).amount := by
  constructor
  · intro h
    unfold NewPosting
    rw [if_pos h, if_neg (by linarith)]
  · unfold NewPosting
    split_ifs with h
    · simp only []
      linarith
    · simpa using le_of_not_lt h

/-- Witness for C6 at a concrete negative amount. -/
theorem newPosting_normalization_witness :
    NewPosting ⟨AccountType.assets, ['A']⟩ ⟨AccountType.expenses, ['E']⟩ ⟨['U']⟩ (-5)
      = NewPosting ⟨AccountType.expenses, ['E']⟩ ⟨AccountType.assets, ['A']⟩ ⟨['U']⟩ 5 ∧
    (0 : ℚ) ≤ (NewPosting ⟨AccountType.assets, ['A']⟩ ⟨AccountType.expenses, ['E']⟩ ⟨['U']⟩ (-5)).amount := by
  refine ⟨?_, (newPosting_normalization _ _ _ _).2⟩
  have h := (newPosting_normalization ⟨AccountType.assets, ['A']⟩
    ⟨AccountType.expenses, ['E']⟩ ⟨['U']⟩ (-5)).1 (by norm_num)
  simpa using h

/-! ## C8: the position-key order -/

/-- C8: `CommodityAccount.Less` is the strict lexicographic order on
(account type, account name, commodity code), and on keys with distinct
triples exactly one direction holds. -/
theorem commodityAccount_less_lex_total :
    (∀ p q : CommodityAccount,
        CommodityAccount.Less p q = true ↔
          (p.account.t.ord < q.account.t.ord
            ∨ (p.account.t = q.account.t
                ∧ (strLt p.account.name q.account.name = true
                    ∨ (p.account.name = q.account.name
                        ∧ strLt p.commodity.code q.commodity.code = true)))))
    ∧ (∀ p q : CommodityAccount,
        (p.account.t, p.account.name, p.commodity.code)
            ≠ (q.account.t, q.account.name, q.commodity.code) →
        ((CommodityAccount.Less p q = true ∧ CommodityAccount.Less q p = false)
          ∨ (CommodityAccount.Less p q = false ∧ CommodityAccount.Less q p = true))) := by
  have hiff : ∀ p q : CommodityAccount,
      CommodityAccount.Less p q = true ↔
        (p.account.t.ord < q.account.t.ord
          ∨ (p.account.t = q.account.t
              ∧ (strLt p.account.name q.account.name = true
                  ∨ (p.account.name = q.account.name
                      ∧ strLt p.commodity.code q.commodity.code = true)))) := by
    intro p q
    unfold CommodityAccount.Less
    by_cases ht : p.account.t = q.account.t
    · rw [if_neg (by simp [ht])]
      have hord : ¬ p.account.t.ord < q.account.t.ord := by rw [ht]; exact lt_irrefl _
      by_cases hn : p.account.name = q.account.name
      · rw [if_neg (by simp [hn])]
        simp [hord, ht, hn, strLt_irrefl]
      · rw [if_pos (by simp [hn])]
        simp [hord, ht, hn]
    · rw [if_pos (by simp [ht])]
      have hdisj : ¬ (p.account.t = q.account.t ∧
          (strLt p.account.name q.account.name = true
            ∨ (p.account.name = q.account.name
                ∧ strLt p.commodity.code q.commodity.code = true))) := fun hc => ht hc.1
      simp [hdisj]
  refine ⟨hiff, ?_⟩
  intro p q hne
  have hko : ∀ a b : CommodityAccount, CommodityAccount.Less a b = false ↔
      ¬ CommodityAccount.Less a b = true := by
    intro a b
    cases h : CommodityAccount.Less a b <;> simp
  by_cases ht : p.account.t = q.account.t
  · by_cases hn : p.account.name = q.account.name
    · have hc : p.commodity.code ≠ q.commodity.code := by
        intro hcc
        exact hne (by rw [ht, hn, hcc])
      rcases strLt_total _ _ hc with h1 | h1
      · left
        refine ⟨(hiff p q).mpr (Or.inr ⟨ht, Or.inr ⟨hn, h1⟩⟩), (hko q p).mpr ?_⟩
        intro h2
        rcases (hiff q p).mp h2 with h3 | ⟨_, h3 | ⟨_, h3⟩⟩
        · rw [ht] at h3; exact absurd h3 (lt_irrefl _)
        · rw [hn] at h3; rw [strLt_irrefl] at h3; exact absurd h3 (by simp)
        · have := strLt_asymm _ _ h1; rw [this] at h3; exact absurd h3 (by simp)
      · right
        refine ⟨(hko p q).mpr ?_, (hiff q p).mpr (Or.inr ⟨ht.symm, Or.inr ⟨hn.symm, h1⟩⟩)⟩
        intro h2
        rcases (hiff p q).mp h2 with h3 | ⟨_, h3 | ⟨_, h3⟩⟩
        · rw [ht] at h3; exact absurd h3 (lt_irrefl _)
        · rw [hn] at h3; rw [strLt_irrefl] at h3; exact absurd h3 (by simp)
        · have := strLt_asymm _ _ h1; rw [this] at h3; exact absurd h3 (by simp)
    · rcases strLt_total _ _ hn with h1 | h1
      · left
        refine ⟨(hiff p q).mpr (Or.inr ⟨ht, Or.inl h1⟩), (hko q p).mpr ?_⟩
        intro h2
        rcases (hiff q p).mp h2 with h3 | ⟨_, h3 | ⟨h3, _⟩⟩
        · rw [ht] at h3; exact absurd h3 (lt_irrefl _)
        · have := strLt_asymm _ _ h1; rw [this] at h3; exact absurd h3 (by simp)
        · exact hn h3.symm
      · right
        refine ⟨(hko p q).mpr ?_, (hiff q p).mpr (Or.inr ⟨ht.symm, Or.inl h1⟩)⟩
        intro h2
        rcases (hiff p q).mp h2 with h3 | ⟨_, h3 | ⟨h3, _⟩⟩
        · rw [ht] at h3; exact absurd h3 (lt_irrefl _)
        · have := strLt_asymm _ _ h1; rw [this] at h3; exact absurd h3 (by simp)
        · exact hn h3
  · have hordne : p.account.t.ord ≠ q.account.t.ord := fun hh => ht (accountTypeOrd_inj _ _ hh)
    rcases Nat.lt_or_ge p.account.t.ord q.account.t.ord with h1 | h1
    · left
      refine ⟨(hiff p q).mpr (Or.inl h1), (hko q p).mpr ?_⟩
      intro h2
      rcases (hiff q p).mp h2 with h3 | ⟨h3, _⟩
      · exact absurd h3 (Nat.lt_asymm h1)
      · exact ht h3.symm
    · have h1' : q.account.t.ord < p.account.t.ord := lt_of_le_of_ne h1 (Ne.symm hordne)
      right
      refine ⟨(hko p q).mpr ?_, (hiff q p).mpr (Or.inl h1')⟩
      intro h2
      rcases (hiff p q).mp h2 with h3 | ⟨h3, _⟩
      · exact absurd h3 (Nat.lt_asymm h1')
      · exact ht h3

/-- Witness for C8 at concrete distinct position keys. -/
theorem commodityAccount_less_lex_total_witness :
    (CommodityAccount.Less ⟨⟨AccountType.assets, ['A']⟩, ⟨['U']⟩⟩
          ⟨⟨AccountType.income, ['B']⟩, ⟨['U']⟩⟩ = true
      ∧ CommodityAccount.Less ⟨⟨AccountType.income, ['B']⟩, ⟨['U']⟩⟩
          ⟨⟨AccountType.assets, ['A']⟩, ⟨['U']⟩⟩ = false)
    ∨ (CommodityAccount.Less ⟨⟨AccountType.assets, ['A']⟩, ⟨['U']⟩⟩
          ⟨⟨AccountType.income, ['B']⟩, ⟨['U']⟩⟩ = false
      ∧ CommodityAccount.Less ⟨⟨AccountType.income, ['B']⟩, ⟨['U']⟩⟩
          ⟨⟨AccountType.assets, ['A']⟩, ⟨['U']⟩⟩ = true) :=
  commodityAccount_less_lex_total.2 _ _ (by decide)

/-! ## C1: booking preserves the per-commodity equilibrium -/

theorem book_amounts_eval (b : Balance) (cr dr : Account) (a : ℚ) (c : Commodity)
    (k : CommodityAccount) :
    (b.Book cr dr a c).amounts k =
      b.amounts k + (if k = ⟨dr, c⟩ then a else 0) - (if k = ⟨cr, c⟩ then a else 0) := by
  show Function.update (Function.update b.amounts ⟨cr, c⟩ (b.amounts ⟨cr, c⟩ - a)) ⟨dr, c⟩
      (Function.update b.amounts ⟨cr, c⟩ (b.amounts ⟨cr, c⟩ - a) ⟨dr, c⟩ + a) k = _
  by_cases hdr : k = (⟨dr, c⟩ : CommodityAccount)
  · subst hdr
    rw [Function.update_same, if_pos rfl]
    by_cases hcd : (⟨dr, c⟩ : CommodityAccount) = ⟨cr, c⟩
    · rw [if_pos hcd, hcd, Function.update_same]
      ring
    · rw [if_neg hcd, Function.update_noteq hcd]
      ring
  · rw [Function.update_noteq hdr, if_neg hdr]
    by_cases hcr : k = (⟨cr, c⟩ : CommodityAccount)
    · rw [if_pos hcr, hcr, Function.update_same]
      ring
    · rw [Function.update_noteq hcr, if_neg hcr]
      ring

theorem book_amounts_eval' (b : Balance) (cr dr : Account) (a : ℚ) (c : Commodity)
    (x : Account) (c' : Commodity) :
    (b.Book cr dr a c).amounts ⟨x, c'⟩ =
      b.amounts ⟨x, c'⟩ + (if x = dr ∧ c' = c then a else 0)
        - (if x = cr ∧ c' = c then a else 0) := by
  rw [book_amounts_eval]
  simp [CommodityAccount.mk.injEq]

theorem book_sum_eq (b : Balance) (cr dr : Account) (a : ℚ) (c : Commodity)
    (S : Finset Account) (hcr : cr ∈ S) (hdr : dr ∈ S) (c' : Commodity) :
    Finset.sum S (fun x => (b.Book cr dr a c).amounts ⟨x, c'⟩) =
      Finset.sum S (fun x => b.amounts ⟨x, c'⟩) := by
  rw [Finset.sum_congr rfl (fun x _ => book_amounts_eval' b cr dr a c x c')]
  rw [Finset.sum_sub_distrib, Finset.sum_add_distrib]
  by_cases hc : c' = c
  · subst hc
    simp only [eq_self_iff_true, and_true]
    rw [Finset.sum_ite_eq' S dr (fun _ => a), Finset.sum_ite_eq' S cr (fun _ => a),
      if_pos hdr, if_pos hcr]
    ring
  · simp [hc]

theorem bookPostings_sum (S : Finset Account) :
    ∀ (ps : List Posting) (b : Balance),
      (∀ p ∈ ps, p.credit ∈ S ∧ p.debit ∈ S) →
      ∀ c', Finset.sum S (fun x => (bookPostings b ps).amounts ⟨x, c'⟩)
            = Finset.sum S (fun x => b.amounts ⟨x, c'⟩) := by
  intro ps
  induction ps with
  | nil => intro b _ c'; rfl
  | cons p ps ih =>
    intro b hmem c'
    have hp := hmem p (List.mem_cons_self p ps)
    have hstep : bookPostings b (p :: ps)
        = bookPostings (b.Book p.credit p.debit p.amount p.commodity) ps := rfl
    rw [hstep, ih _ (fun q hq => hmem q (List.mem_cons_of_mem p hq)) c',
      book_sum_eq b p.credit p.debit p.amount p.commodity S hp.1 hp.2 c']

theorem bookTransactions_sum (S : Finset Account) :
    ∀ (ts : List Transaction) (b : Balance),
      (∀ t ∈ ts, ∀ p ∈ t.postings, p.credit ∈ S ∧ p.debit ∈ S) →
      ∀ c', Finset.sum S (fun x => (bookTransactions b ts).amounts ⟨x, c'⟩)
            = Finset.sum S (fun x => b.amounts ⟨x, c'⟩) := by
  intro ts
  induction ts with
  | nil => intro b _ c'; rfl
  | cons t ts ih =>
    intro b hmem c'
    have hstep : bookTransactions b (t :: ts)
        = bookTransactions (bookPostings b t.postings) ts := rfl
    rw [hstep, ih _ (fun u hu => hmem u (List.mem_cons_of_mem t hu)) c',
      bookPostings_sum S t.postings b (hmem t (List.mem_cons_self t ts)) c']

/-- C1: `Balance.Book` subtracts the amount at the credit position and adds it
at the debit position, and booking every posting of every transaction of a day
preserves a zero per-commodity sum of the amounts over all accounts. -/
theorem booking_preserves_equilibrium :
    (∀ (b : Balance) (cr dr : Account) (a : ℚ) (c : Commodity) (k : CommodityAccount),
        (b.Book cr dr a c).amounts k =
          b.amounts k + (if k = ⟨dr, c⟩ then a else 0) - (if k = ⟨cr, c⟩ then a else 0))
    ∧ (∀ (S : Finset Account) (b : Balance) (ts : List Transaction),
        (∀ t ∈ ts, ∀ p ∈ t.postings, p.credit ∈ S ∧ p.debit ∈ S) →
        (∀ c, Finset.sum S (fun x => b.amounts ⟨x, c⟩) = 0) →
        ∀ c, Finset.sum S (fun x => (bookTransactions b ts).amounts ⟨x, c⟩) = 0) :=
  ⟨book_amounts_eval, fun S b ts hmem h0 c => by
    rw [bookTransactions_sum S ts b hmem c]
    exact h0 c⟩

/-- Witness for C1: a day with one transaction between two accounts keeps the
sum over both accounts at zero. -/
theorem booking_preserves_equilibrium_witness :
    Finset.sum ({⟨AccountType.assets, ['A']⟩, ⟨AccountType.income, ['I']⟩} : Finset Account)
      (fun x => (bookTransactions
          ⟨0, fun _ => 0, fun _ => 0, fun _ => true⟩
          [{ range := [], date := 1, description := [], tags := [],
             postings := [{ amount := 5, value := 0,
                            credit := ⟨AccountType.income, ['I']⟩,
                            debit := ⟨AccountType.assets, ['A']⟩,
                            commodity := ⟨['U']⟩, lot := none }] }]).amounts
          ⟨x, ⟨['U']⟩⟩) = 0 :=
  booking_preserves_equilibrium.2 _ _ _ (by decide) (fun _ => Finset.sum_const_zero) ⟨['U']⟩

/-! ## C3: `BookAmount` errors exactly on non-open accounts -/

theorem bookAmountGo_spec (t : Transaction) :
    ∀ (ps : List Posting) (b : Balance),
      ((bookAmountGo t b ps).2.isSome = true ↔
        ∃ p ∈ ps, b.accounts p.credit = false ∨ b.accounts p.debit = false)
      ∧ (∀ e, (bookAmountGo t b ps).2 = some e → e.directive = t)
      ∧ ((∀ p ∈ ps, b.accounts p.credit = true ∧ b.accounts p.debit = true) →
          bookAmountGo t b ps = (bookPostings b ps, none)) := by
  intro ps
  induction ps with
  | nil =>
    intro b
    refine ⟨by simp [bookAmountGo], ?_, fun _ => rfl⟩
    intro e he
    simp [bookAmountGo] at he
  | cons p ps ih =>
    intro b
    cases hcr : b.accounts p.credit with
    | false =>
      have hgo : bookAmountGo t b (p :: ps)
          = (b, some ⟨t, "credit account ".toList ++ p.credit.name ++ " is not open".toList⟩) := by
        simp [bookAmountGo, hcr]
      refine ⟨?_, ?_, ?_⟩
      · constructor
        · intro _
          exact ⟨p, List.mem_cons_self p ps, Or.inl hcr⟩
        · intro _
          rw [hgo]
          rfl
      · intro e he
        rw [hgo] at he
        rw [← Option.some.inj he]
      · intro hall
        exact absurd (hall p (List.mem_cons_self p ps)).1 (by simp [hcr])
    | true =>
      cases hdr : b.accounts p.debit with
      | false =>
        have hgo : bookAmountGo t b (p :: ps)
            = (b, some ⟨t, "debit account ".toList ++ p.debit.name ++ " is not open".toList⟩) := by
          simp [bookAmountGo, hcr, hdr]
        refine ⟨?_, ?_, ?_⟩
        · constructor
          · intro _
            exact ⟨p, List.mem_cons_self p ps, Or.inr hdr⟩
          · intro _
            rw [hgo]
            rfl
        · intro e he
          rw [hgo] at he
          rw [← Option.some.inj he]
        · intro hall
          exact absurd (hall p (List.mem_cons_self p ps)).2 (by simp [hdr])
      | true =>
        have hgo : bookAmountGo t b (p :: ps)
            = bookAmountGo t (b.Book p.credit p.debit p.amount p.commodity) ps := by
          simp [bookAmountGo, hcr, hdr]
        have hacc : (b.Book p.credit p.debit p.amount p.commodity).accounts = b.accounts := rfl
        obtain ⟨ih1, ih2, ih3⟩ := ih (b.Book p.credit p.debit p.amount p.commodity)
        rw [hacc] at ih1 ih3
        refine ⟨?_, ?_, ?_⟩
        · rw [hgo, ih1]
          constructor
          · rintro ⟨q, hq, hqq⟩
            exact ⟨q, List.mem_cons_of_mem p hq, hqq⟩
          · rintro ⟨q, hq, hqq⟩
            rcases List.mem_cons.mp hq with hq | hq
            · subst hq
              rcases hqq with hqq | hqq
              · rw [hcr] at hqq
                exact absurd hqq (by simp)
              · rw [hdr] at hqq
                exact absurd hqq (by simp)
            · exact ⟨q, hq, hqq⟩
        · intro e he
          rw [hgo] at he
          exact ih2 e he
        · intro hall
          rw [hgo, ih3 (fun q hq => hall q (List.mem_cons_of_mem p hq))]
          rfl

/-- C3: `Balance.BookAmount` returns an error (whose directive is the booked
transaction) exactly when some posting's credit or debit account is not open;
when every account is open it returns no error and books every posting. -/
theorem bookAmount_error_iff (b : Balance) (t : Transaction) :
    ((Balance.BookAmount b t).2.isSome = true ↔
        ∃ p ∈ t.postings, b.accounts p.credit = false ∨ b.accounts p.debit = false)
    ∧ (∀ e, (Balance.BookAmount b t).2 = some e → e.directive = t)
    ∧ ((∀ p ∈ t.postings, b.accounts p.credit = true ∧ b.accounts p.debit = true) →
        Balance.BookAmount b t = (bookPostings b t.postings, none)) :=
  bookAmountGo_spec t t.postings b

/-- Witness for C3: with every posting account open, no error is returned and
the posting is booked. -/
theorem bookAmount_error_iff_witness :
    Balance.BookAmount ⟨0, fun _ => 0, fun _ => 0, fun _ => true⟩
        { range := [], date := 1, description := [], tags := [],
          postings := [{ amount := 5, value := 0,
                         credit := ⟨AccountType.income, ['I']⟩,
                         debit := ⟨AccountType.assets, ['A']⟩,
                         commodity := ⟨['U']⟩, lot := none }] }
      = (bookPostings ⟨0, fun _ => 0, fun _ => 0, fun _ => true⟩
          [{ amount := 5, value := 0,
             credit := ⟨AccountType.income, ['I']⟩,
             debit := ⟨AccountType.assets, ['A']⟩,
             commodity := ⟨['U']⟩, lot := none }], none) :=
  (bookAmount_error_iff _ _).2.2 (by intro p hp; simp at hp; subst hp; exact ⟨rfl, rfl⟩)

/-! ## C9: `BookAmount` is not atomic on failure -/

theorem bookAmountGo_prefix (t : Transaction) :
    ∀ (ps : List Posting) (b : Balance) (k : Nat) (hk : k < ps.length),
      (∀ i, ∀ hi : i < k, b.accounts (ps.get ⟨i, Nat.lt_trans hi hk⟩).credit = true
          ∧ b.accounts (ps.get ⟨i, Nat.lt_trans hi hk⟩).debit = true) →
      ¬ (b.accounts (ps.get ⟨k, hk⟩).credit = true
          ∧ b.accounts (ps.get ⟨k, hk⟩).debit = true) →
      ∃ e, bookAmountGo t b ps = (bookPostings b (ps.take k), some e) := by
  intro ps
  induction ps with
  | nil =>
    intro b k hk
    exact absurd hk (by simp)
  | cons p ps ih =>
    intro b k hk hpre hfail
    cases k with
    | zero =>
      cases hcr : b.accounts p.credit with
      | false =>
        refine ⟨⟨t, "credit account ".toList ++ p.credit.name ++ " is not open".toList⟩, ?_⟩
        simp [bookAmountGo, hcr, bookPostings]
      | true =>
        have hdr : b.accounts p.debit = false := by
          cases hdr : b.accounts p.debit with
          | false => rfl
          | true => exact absurd ⟨hcr, hdr⟩ hfail
        refine ⟨⟨t, "debit account ".toList ++ p.debit.name ++ " is not open".toList⟩, ?_⟩
        simp [bookAmountGo, hcr, hdr, bookPostings]
    | succ k =>
      have hp := hpre 0 (Nat.succ_pos k)
      have hp1 : b.accounts p.credit = true := hp.1
      have hp2 : b.accounts p.debit = true := hp.2
      have hgo : bookAmountGo t b (p :: ps)
          = bookAmountGo t (b.Book p.credit p.debit p.amount p.commodity) ps := by
        simp [bookAmountGo, hp1, hp2]
      have hk' : k < ps.length := Nat.lt_of_succ_lt_succ hk
      obtain ⟨e, he⟩ := ih (b.Book p.credit p.debit p.amount p.commodity) k hk'
        (fun i hi => hpre (i + 1) (Nat.succ_lt_succ hi)) hfail
      refine ⟨e, ?_⟩
      rw [hgo, he]
      rfl

/-- C9: if `BookAmount` first fails at the `k`-th posting, the returned
balance is the input balance with the `k` preceding postings already booked
(each posting is booked before the next one is checked). -/
theorem bookAmount_not_atomic (b : Balance) (t : Transaction) (k : Nat)
    (hk : k < t.postings.length)
    (hpre : ∀ i, ∀ hi : i < k,
      b.accounts (t.postings.get ⟨i, Nat.lt_trans hi hk⟩).credit = true
        ∧ b.accounts (t.postings.get ⟨i, Nat.lt_trans hi hk⟩).debit = true)
    (hfail : ¬ (b.accounts (t.postings.get ⟨k, hk⟩).credit = true
        ∧ b.accounts (t.postings.get ⟨k, hk⟩).debit = true)) :
    ∃ e, Balance.BookAmount b t = (bookPostings b (t.postings.take k), some e) :=
  bookAmountGo_prefix t t.postings b k hk hpre hfail

/-- Witness for C9: the second posting references a closed account, the error
is returned, and the amounts map already carries the first posting — the
balance differs from its pre-call state (whose amounts were all `0`). -/
theorem bookAmount_not_atomic_witness :
    (∃ e, Balance.BookAmount ⟨0, fun _ => 0, fun _ => 0, fun a => isAL a⟩
        { range := [], date := 1, description := [], tags := [],
          postings := [{ amount := 5, value := 0,
                         credit := ⟨AccountType.assets, ['A']⟩,
                         debit := ⟨AccountType.assets, ['B']⟩,
                         commodity := ⟨['U']⟩, lot := none },
                       { amount := 1, value := 0,
                         credit := ⟨AccountType.assets, ['A']⟩,
                         debit := ⟨AccountType.income, ['C']⟩,
                         commodity := ⟨['U']⟩, lot := none }] }
      = (bookPostings ⟨0, fun _ => 0, fun _ => 0, fun a => isAL a⟩
          ([{ amount := 5, value := 0,
              credit := ⟨AccountType.assets, ['A']⟩,
              debit := ⟨AccountType.assets, ['B']⟩,
              commodity := ⟨['U']⟩, lot := none },
            { amount := 1, value := 0,
              credit := ⟨AccountType.assets, ['A']⟩,
              debit := ⟨AccountType.income, ['C']⟩,
              commodity := ⟨['U']⟩, lot := none }].take 1), some e))
    ∧ (Balance.BookAmount ⟨0, fun _ => 0, fun _ => 0, fun a => isAL a⟩
        { range := [], date := 1, description := [], tags := [],
          postings := [{ amount := 5, value := 0,
                         credit := ⟨AccountType.assets, ['A']⟩,
                         debit := ⟨AccountType.assets, ['B']⟩,
                         commodity := ⟨['U']⟩, lot := none },
                       { amount := 1, value := 0,
                         credit := ⟨AccountType.assets, ['A']⟩,
                         debit := ⟨AccountType.income, ['C']⟩,
                         commodity := ⟨['U']⟩, lot := none }] }).1.amounts
        ⟨⟨AccountType.assets, ['A']⟩, ⟨['U']⟩⟩ ≠ (0 : ℚ) :=
  ⟨bookAmount_not_atomic _ _ 1 (by decide)
      (fun i hi => by
        have h0 : i = 0 := Nat.lt_one_iff.mp hi
        subst h0
        exact ⟨rfl, rfl⟩)
      (by decide),
    by with_unfolding_all decide⟩

/-! ## C4: difference partitioning telescopes -/

theorem diffs_getD :
    ∀ (bals : List Balance) (i : Nat), i + 1 < bals.length →
      (Diffs bals).getD i default
        = Balance.Minus (bals.getD (i + 1) default) (bals.getD i default) := by
  intro bals
  induction bals with
  | nil =>
    intro i h
    simp at h
  | cons b rest ih =>
    intro i h
    cases rest with
    | nil => simp at h
    | cons c rest2 =>
      cases i with
      | zero => rfl
      | succ i =>
        have h' : i + 1 < (c :: rest2).length := by
          simpa using Nat.lt_of_succ_lt_succ h
        have hstep : (Diffs (b :: c :: rest2)).getD (i + 1) default
            = (Diffs (c :: rest2)).getD i default := rfl
        rw [hstep, ih i h']
        rfl

/-- C4: `Diffs` drops the first cumulative balance and telescopes — the result
is one element shorter, entry `i` is the pointwise difference (amounts and
values) of cumulative entries `i+1` and `i`, and adding the first `n`
differences to the first cumulative balance reconstructs cumulative entry `n`. -/
theorem diffs_drop_first_and_telescope (bals : List Balance) (h : bals ≠ []) :
    (Diffs bals).length = bals.length - 1
    ∧ (∀ i, i + 1 < bals.length →
        (∀ k, ((Diffs bals).getD i default).amounts k
            = (bals.getD (i + 1) default).amounts k - (bals.getD i default).amounts k)
        ∧ (∀ k, ((Diffs bals).getD i default).values k
            = (bals.getD (i + 1) default).values k - (bals.getD i default).values k))
    ∧ (∀ n, n < bals.length → ∀ k,
        ((bals.getD 0 default).amounts k
            + Finset.sum (Finset.range n)
                (fun i => ((Diffs bals).getD i default).amounts k)
          = (bals.getD n default).amounts k)
        ∧ ((bals.getD 0 default).values k
            + Finset.sum (Finset.range n)
                (fun i => ((Diffs bals).getD i default).values k)
          = (bals.getD n default).values k)) := by
  refine ⟨?_, ?_, ?_⟩
  · show (List.zipWith Balance.Minus (bals.drop 1) bals).length = bals.length - 1
    rw [List.length_zipWith, List.length_drop]
    omega
  · intro i hi
    constructor
    · intro k
      rw [diffs_getD bals i hi]
      rfl
    · intro k
      rw [diffs_getD bals i hi]
      rfl
  · intro n
    induction n with
    | zero =>
      intro _ k
      constructor <;> simp
    | succ n ihn =>
      intro hn k
      have hn' : n < bals.length := Nat.lt_of_succ_lt hn
      obtain ⟨ha, hv⟩ := ihn hn' k
      constructor
      · rw [Finset.sum_range_succ, ← add_assoc, ha, diffs_getD bals n hn]
        show (bals.getD n default).amounts k
            + ((bals.getD (n + 1) default).amounts k - (bals.getD n default).amounts k)
          = (bals.getD (n + 1) default).amounts k
        ring
      · rw [Finset.sum_range_succ, ← add_assoc, hv, diffs_getD bals n hn]
        show (bals.getD n default).values k
            + ((bals.getD (n + 1) default).values k - (bals.getD n default).values k)
          = (bals.getD (n + 1) default).values k
        ring

/-- Witness for C4: on two concrete cumulative balances, the first balance
plus the single difference reconstructs the second. -/
theorem diffs_drop_first_and_telescope_witness :
    (sampleBalances.getD 0 default).amounts
        ⟨⟨AccountType.assets, ['A']⟩, ⟨['U']⟩⟩
      + Finset.sum (Finset.range 1)
          (fun i => ((Diffs sampleBalances).getD i default).amounts
            ⟨⟨AccountType.assets, ['A']⟩, ⟨['U']⟩⟩)
      = (sampleBalances.getD 1 default).amounts
          ⟨⟨AccountType.assets, ['A']⟩, ⟨['U']⟩⟩ :=
  ((diffs_drop_first_and_telescope sampleBalances (by simp [sampleBalances])).2.2 1
    (by simp [sampleBalances]) ⟨⟨AccountType.assets, ['A']⟩, ⟨['U']⟩⟩).1

/-! ## C7: journal builder date bounds -/

theorem dayAt_date (j : Journal) (hwf : journalWF j) (k : Nat) : (j.DayAt k).date = k := by
  unfold Journal.DayAt
  cases h : j.days k with
  | none => rfl
  | some day => exact hwf k day h

theorem update_wf (j : Journal) (hwf : journalWF j) (key : Nat) (day : JDay)
    (hd : day.date = key) :
    ∀ k d, Function.update j.days key (some day) k = some d → d.date = k := by
  intro k d h
  by_cases hk : k = key
  · subst hk
    rw [Function.update_same] at h
    rw [← Option.some.inj h]
    exact hd
  · rw [Function.update_noteq hk] at h
    exact hwf k d h

theorem addDirective_wf (j : Journal) (hwf : journalWF j) (d : MDirective) :
    journalWF (j.addDirective d) := by
  cases d with
  | mopen o => exact update_wf j hwf o.date _ (dayAt_date j hwf o.date)
  | mprice p => exact update_wf j hwf p.date _ (dayAt_date j hwf p.date)
  | mtransaction t => exact update_wf j hwf t.date _ (dayAt_date j hwf t.date)
  | massertion a => exact update_wf j hwf a.date _ (dayAt_date j hwf a.date)
  | mclose c => exact update_wf j hwf c.date _ (dayAt_date j hwf c.date)

theorem addDirective_min_le (j : Journal) (hwf : journalWF j) (d : MDirective) :
    (j.addDirective d).min ≤ j.min := by
  cases d with
  | mopen o => exact Nat.le_refl _
  | mprice p => exact Nat.le_refl _
  | massertion a => exact Nat.le_refl _
  | mclose c => exact Nat.le_refl _
  | mtransaction t =>
    show (if t.date < j.min then (j.DayAt t.date).date else j.min) ≤ j.min
    rw [dayAt_date j hwf t.date]
    split_ifs with h
    · exact Nat.le_of_lt h
    · exact Nat.le_refl _

theorem le_addDirective_max (j : Journal) (d : MDirective) :
    j.max ≤ (j.addDirective d).max := by
  cases d with
  | mopen o => exact Nat.le_refl _
  | massertion a => exact Nat.le_refl _
  | mclose c => exact Nat.le_refl _
  | mprice p =>
    show j.max ≤ (if j.max < (j.DayAt p.date).date then (j.DayAt p.date).date else j.max)
    split_ifs with h
    · exact Nat.le_of_lt h
    · exact Nat.le_refl _
  | mtransaction t =>
    show j.max ≤ (if j.max < (j.DayAt t.date).date then (j.DayAt t.date).date else j.max)
    split_ifs with h
    · exact Nat.le_of_lt h
    · exact Nat.le_refl _

theorem foldl_addDirective_wf :
    ∀ (ds : List MDirective) (j : Journal), journalWF j →
      journalWF (ds.foldl Journal.addDirective j) := by
  intro ds
  induction ds with
  | nil => intro j h; exact h
  | cons d ds ih => intro j h; exact ih _ (addDirective_wf j h d)

theorem foldl_addDirective_min_le :
    ∀ (ds : List MDirective) (j : Journal), journalWF j →
      (ds.foldl Journal.addDirective j).min ≤ j.min := by
  intro ds
  induction ds with
  | nil => intro j _; exact Nat.le_refl _
  | cons d ds ih =>
    intro j h
    exact Nat.le_trans (ih _ (addDirective_wf j h d)) (addDirective_min_le j h d)

theorem le_foldl_addDirective_max :
    ∀ (ds : List MDirective) (j : Journal),
      j.max ≤ (ds.foldl Journal.addDirective j).max := by
  intro ds
  induction ds with
  | nil => intro j; exact Nat.le_refl _
  | cons d ds ih =>
    intro j
    exact Nat.le_trans (le_addDirective_max j d) (ih _)

theorem foldl_txn_bounds :
    ∀ (ds : List MDirective) (j : Journal), journalWF j →
      (∀ t, MDirective.mtransaction t ∈ ds →
        (ds.foldl Journal.addDirective j).min ≤ t.date
          ∧ t.date ≤ (ds.foldl Journal.addDirective j).max)
      ∧ (∀ p, MDirective.mprice p ∈ ds →
        p.date ≤ (ds.foldl Journal.addDirective j).max) := by
  intro ds
  induction ds with
  | nil =>
    intro j _
    exact ⟨fun t ht => absurd ht (List.not_mem_nil _),
           fun p hp => absurd hp (List.not_mem_nil _)⟩
  | cons d ds ih =>
    intro j hwf
    have hwf1 : journalWF (j.addDirective d) := addDirective_wf j hwf d
    obtain ⟨ihT, ihP⟩ := ih (j.addDirective d) hwf1
    constructor
    · intro t ht
      rcases List.mem_cons.mp ht with h | h
      · cases h
        have h1 : (j.addDirective (MDirective.mtransaction t)).min ≤ t.date := by
          show (if t.date < j.min then (j.DayAt t.date).date else j.min) ≤ t.date
          rw [dayAt_date j hwf t.date]
          split_ifs with hh
          · exact Nat.le_refl _
          · exact Nat.le_of_not_lt hh
        have h2 : t.date ≤ (j.addDirective (MDirective.mtransaction t)).max := by
          show t.date ≤ (if j.max < (j.DayAt t.date).date then (j.DayAt t.date).date else j.max)
          rw [dayAt_date j hwf t.date]
          split_ifs with hh
          · exact Nat.le_refl _
          · exact Nat.le_of_not_lt hh
        exact ⟨Nat.le_trans (foldl_addDirective_min_le ds _ hwf1) h1,
               Nat.le_trans h2 (le_foldl_addDirective_max ds _)⟩
      · exact ihT t h
    · intro p hp
      rcases List.mem_cons.mp hp with h | h
      · cases h
        have h2 : p.date ≤ (j.addDirective (MDirective.mprice p)).max := by
          show p.date ≤ (if j.max < (j.DayAt p.date).date then (j.DayAt p.date).date else j.max)
          rw [dayAt_date j hwf p.date]
          split_ifs with hh
          · exact Nat.le_refl _
          · exact Nat.le_of_not_lt hh
        exact Nat.le_trans h2 (le_foldl_addDirective_max ds _)
      · exact ihP p h

/-- C7 (amended): after the builder has consumed all directives, every
transaction's date lies inside `[min, max]` of `Journal.Period()`, and every
price's date is at most `max`; directives of the other kinds do not update the
bounds. -/
theorem journal_period_bounds (ds : List MDirective) :
    (∀ t, MDirective.mtransaction t ∈ ds →
      (buildJournal ds).Period.1 ≤ t.date ∧ t.date ≤ (buildJournal ds).Period.2)
    ∧ (∀ p, MDirective.mprice p ∈ ds → p.date ≤ (buildJournal ds).Period.2) :=
  foldl_txn_bounds ds Journal.new (fun _ _ h => Option.noConfusion h)

/-- Counterexample for C7 as stated: a journal holding a single `Open`
directive leaves `min = 99991231` and `max = 0`, so the open's date is not
inside the bounds returned by `Journal.Period()`. -/
theorem journal_period_misses_open :
    ¬ ((buildJournal [MDirective.mopen ⟨20200101, ⟨AccountType.assets, ['A']⟩⟩]).Period.1
          ≤ 20200101
        ∧ 20200101
          ≤ (buildJournal [MDirective.mopen ⟨20200101, ⟨AccountType.assets, ['A']⟩⟩]).Period.2) := by
  decide

/-- Witness for C7 (amended) at a concrete single-transaction journal. -/
theorem journal_period_bounds_witness :
    (buildJournal [MDirective.mtransaction ⟨20200115, [], []⟩]).Period.1 ≤ 20200115
      ∧ 20200115 ≤ (buildJournal [MDirective.mtransaction ⟨20200115, [], []⟩]).Period.2 :=
  (journal_period_bounds _).1 ⟨20200115, [], []⟩ (by decide)

/-! ## C10: `MinDate` and empty period series -/

theorem minDateGo_none :
    ∀ (days : List Day), (∀ d ∈ days, d.openings = []) → minDateGo days = none := by
  intro days
  induction days with
  | nil => intro _; rfl
  | cons d ds ih =>
    intro h
    have hd : d.openings = [] := h d (List.mem_cons_self d ds)
    show (if d.openings.length > 0 then some d.date else minDateGo ds) = none
    rw [hd]
    exact ih (fun d' hd' => h d' (List.mem_cons_of_mem d hd'))

theorem minDateGo_first :
    ∀ (pre : List Day) (d : Day) (post : List Day),
      (∀ d' ∈ pre, d'.openings = []) → d.openings ≠ [] →
      minDateGo (pre ++ d :: post) = some d.date := by
  intro pre
  induction pre with
  | nil =>
    intro d post _ hd
    show (if d.openings.length > 0 then some d.date else minDateGo post) = some d.date
    rw [if_pos (by simpa [List.length_pos] using hd)]
  | cons p pre ih =>
    intro d post hpre hd
    have hp : p.openings = [] := hpre p (List.mem_cons_self p pre)
    show (if p.openings.length > 0 then some p.date else minDateGo (pre ++ d :: post))
        = some d.date
    rw [hp]
    exact ih d post (fun d' hd' => hpre d' (List.mem_cons_of_mem p hd')) hd

/-- C10: `Ledger.MinDate` returns the date of the first day with at least one
opening and `none` when no day has one; consequently, for a ledger with no
openings and no explicit from-date, `Ledger.Dates` returns the empty series,
whatever the to-date and period. -/
theorem minDate_first_opening_and_dates_empty :
    (∀ (l : Ledger), (∀ d ∈ l.days, d.openings = []) → l.MinDate = none)
    ∧ (∀ (l : Ledger) (pre : List Day) (d : Day) (post : List Day),
        l.days = pre ++ d :: post → (∀ d' ∈ pre, d'.openings = []) → d.openings ≠ [] →
        l.MinDate = some d.date)
    ∧ (∀ (series : SeriesFn) (l : Ledger) (toDate : Option Nat) (p : Period),
        (∀ d ∈ l.days, d.openings = []) →
        Ledger.Dates series l none toDate p = []) := by
  refine ⟨?_, ?_, ?_⟩
  · intro l h
    exact minDateGo_none l.days h
  · intro l pre d post hdays hpre hd
    show minDateGo l.days = some d.date
    rw [hdays]
    exact minDateGo_first pre d post hpre hd
  · intro series l toDate p h
    have hm : l.MinDate = none := minDateGo_none l.days h
    show (match l.MinDate with
          | none => []
          | some t0 =>
            match toDate.orElse (fun _ => l.MaxDate) with
            | none => []
            | some t1 => series t0 t1 p) = []
    rw [hm]

/-- Witness for C10: a one-day ledger holding only a transaction yields no
period dates when no from-date is given. -/
theorem minDate_first_opening_and_dates_empty_witness :
    Ledger.Dates (fun t0 t1 _ => [t0, t1])
        ⟨[{ date := 20200115, prices := [], assertions := [], values := [],
            openings := [],
            transactions := [{ range := [], date := 20200115, description := [],
                               tags := [], postings := [] }],
            closings := [] }]⟩
        none (some 20200131) Period.months = [] :=
  minDate_first_opening_and_dates_empty.2.2 _ _ _ _ (by decide)

/-! ## C5: accrual leg selection -/

theorem isAL_isIE_disjoint (a : Account) : ¬(isAL a = true ∧ isIE a = true) := by
  rcases a with ⟨t, n⟩
  cases t <;> simp [isAL, isIE]

/-- C5 (amended): the leg accounts chosen by `Accrual.Expand`'s switch — if the
credit is Assets/Liabilities and the debit Income/Expenses, the single leg is
`(C, S)` and the multi leg `(S, D)`; in the mirrored case the multi leg is
`(C, S)` and the single leg `(S, D)`; if both are Income/Expenses the multi
leg is `(C, D)` itself (the split account is not used) and the single leg is
`(S, S)`, hence suppressed; otherwise only the single leg `(C, D)` remains;
and a leg whose credit equals its debit emits no transactions. -/
theorem accrual_leg_selection :
    (∀ (s : Account) (p : Posting), (isAL p.credit && isIE p.debit) = true →
        accrualAccounts s p = (p.credit, s, s, p.debit))
    ∧ (∀ (s : Account) (p : Posting), (isIE p.credit && isAL p.debit) = true →
        accrualAccounts s p = (s, p.debit, p.credit, s))
    ∧ (∀ (s : Account) (p : Posting), (isIE p.credit && isIE p.debit) = true →
        accrualAccounts s p = (s, s, p.credit, p.debit))
    ∧ (∀ (s : Account) (p : Posting),
        ¬(isAL p.credit && isIE p.debit) = true →
        ¬(isIE p.credit && isAL p.debit) = true →
        ¬(isIE p.credit && isIE p.debit) = true →
        accrualAccounts s p = (p.credit, p.debit, s, s))
    ∧ (∀ (series : SeriesFn) (a : Accrual) (p : Posting) (crM : Account),
        accrualMulti series a p crM crM = [])
    ∧ (∀ (a : Accrual) (p : Posting) (crS : Account),
        accrualSingle a p crS crS = [])
    ∧ (∀ (series : SeriesFn) (a : Accrual),
        Accrual.Expand series a
          = accrualMulti series a a.transaction.postings.headI
              (crMultiOf a.account a.transaction.postings.headI)
              (drMultiOf a.account a.transaction.postings.headI)
            ++ accrualSingle a a.transaction.postings.headI
              (crSingleOf a.account a.transaction.postings.headI)
              (drSingleOf a.account a.transaction.postings.headI)) := by
  refine ⟨?_, ?_, ?_, ?_, ?_, ?_, ?_⟩
  · intro s p h
    unfold accrualAccounts
    rw [if_pos h]
  · intro s p h
    obtain ⟨h1, h2⟩ := Bool.and_eq_true_iff.mp h
    have hc1 : ¬(isAL p.credit && isIE p.debit) = true := by
      intro hc
      exact isAL_isIE_disjoint p.credit ⟨(Bool.and_eq_true_iff.mp hc).1, h1⟩
    unfold accrualAccounts
    rw [if_neg hc1, if_pos h]
  · intro s p h
    obtain ⟨h1, h2⟩ := Bool.and_eq_true_iff.mp h
    have hc1 : ¬(isAL p.credit && isIE p.debit) = true := by
      intro hc
      exact isAL_isIE_disjoint p.credit ⟨(Bool.and_eq_true_iff.mp hc).1, h1⟩
    have hc2 : ¬(isIE p.credit && isAL p.debit) = true := by
      intro hc
      exact isAL_isIE_disjoint p.debit ⟨(Bool.and_eq_true_iff.mp hc).2, h2⟩
    unfold accrualAccounts
    rw [if_neg hc1, if_neg hc2, if_pos h]
  · intro s p h1 h2 h3
    unfold accrualAccounts
    rw [if_neg h1, if_neg h2, if_neg h3]
  · intro series a p crM
    simp [accrualMulti]
  · intro a p crS
    simp [accrualSingle]
  · intro series a
    rfl

/-- Witness for C5 at a concrete Assets-credit / Expenses-debit posting. -/
theorem accrual_leg_selection_witness :
    accrualAccounts ⟨AccountType.assets, ['S']⟩
        { amount := 10, value := 0, credit := ⟨AccountType.assets, ['B']⟩,
          debit := ⟨AccountType.expenses, ['E']⟩, commodity := ⟨['U']⟩, lot := none }
      = (⟨AccountType.assets, ['B']⟩, ⟨AccountType.assets, ['S']⟩,
         ⟨AccountType.assets, ['S']⟩, ⟨AccountType.expenses, ['E']⟩) :=
  accrual_leg_selection.1 _ _ (by decide)

/-- Counterexample for C5 as stated: when credit and debit are both
Income/Expenses the multi-period transactions pair the template's own
accounts `(C, D)` and the split account `S` appears on no side. -/
theorem accrual_both_ie_ignores_split :
    (Accrual.Expand sampleSeries
        { range := [], period := Period.months, t0 := 0, t1 := 2,
          account := ⟨AccountType.assets, ['S']⟩,
          transaction := { range := [], date := 0, description := [], tags := [],
                           postings := [{ amount := 10, value := 0,
                                          credit := ⟨AccountType.income, ['I']⟩,
                                          debit := ⟨AccountType.expenses, ['E']⟩,
                                          commodity := ⟨['U']⟩, lot := none }] } }).map
        (fun t => t.postings.map (fun q => (q.credit, q.debit)))
      = [[(⟨AccountType.income, ['I']⟩, ⟨AccountType.expenses, ['E']⟩)],
         [(⟨AccountType.income, ['I']⟩, ⟨AccountType.expenses, ['E']⟩)]]
    ∧ (⟨AccountType.income, ['I']⟩ : Account) ≠ ⟨AccountType.assets, ['S']⟩
    ∧ (⟨AccountType.expenses, ['E']⟩ : Account) ≠ ⟨AccountType.assets, ['S']⟩ := by
  with_unfolding_all decide

/-! ## C2: accrual amounts and the quo-rem split -/

theorem quoRem_one_def (d d2 : ℚ) :
    quoRem d d2 1 = ((ratTrunc (d * 10 / d2) : ℚ) / 10,
      d - d2 * ((ratTrunc (d * 10 / d2) : ℚ) / 10)) := by
  norm_num [quoRem]

theorem quoRem_sum (d d2 : ℚ) (prec : ℕ) :
    d2 * (quoRem d d2 prec).1 + (quoRem d d2 prec).2 = d := by
  simp [quoRem]

theorem ratTrunc_le (x : ℚ) (hx : 0 ≤ x) : (ratTrunc x : ℚ) ≤ x := by
  have hnum : 0 ≤ x.num := Rat.num_nonneg.mpr hx
  have hdenz : (0:ℤ) < (x.den : ℤ) := by exact_mod_cast x.den_pos
  have key : (x.den : ℤ) * ratTrunc x ≤ x.num := by
    have h1 := Int.tmod_add_tdiv x.num (x.den : ℤ)
    have h2 : 0 ≤ Int.tmod x.num (x.den : ℤ) := Int.tmod_nonneg _ hnum
    unfold ratTrunc
    omega
  have keyq : ((x.den : ℤ) : ℚ) * (ratTrunc x : ℚ) ≤ (x.num : ℚ) := by exact_mod_cast key
  have hdenq : (0:ℚ) < ((x.den : ℤ) : ℚ) := by exact_mod_cast hdenz
  have hx2 : (ratTrunc x : ℚ) ≤ (x.num : ℚ) / ((x.den : ℤ) : ℚ) := by
    rw [le_div_iff₀ hdenq]
    linarith
  have hford : (x.num : ℚ) / ((x.den : ℤ) : ℚ) = x := by
    push_cast
    exact Rat.num_div_den x
  rw [hford] at hx2
  exact hx2

theorem quoRem_q_nonneg (d d2 : ℚ) (hd : 0 ≤ d) (h2 : 0 < d2) :
    0 ≤ (quoRem d d2 1).1 := by
  rw [quoRem_one_def]
  have hx : 0 ≤ d * 10 / d2 := by positivity
  have h1 : (0:ℤ) ≤ ratTrunc (d * 10 / d2) := by
    unfold ratTrunc
    exact Int.tdiv_nonneg (Rat.num_nonneg.mpr hx) (by positivity)
  have h1q : (0:ℚ) ≤ (ratTrunc (d * 10 / d2) : ℚ) := by exact_mod_cast h1
  exact div_nonneg h1q (by norm_num)

theorem quoRem_r_nonneg (d d2 : ℚ) (hd : 0 ≤ d) (h2 : 0 < d2) :
    0 ≤ (quoRem d d2 1).2 := by
  rw [quoRem_one_def]
  have hx : 0 ≤ d * 10 / d2 := by positivity
  have h1 : (ratTrunc (d * 10 / d2) : ℚ) ≤ d * 10 / d2 := ratTrunc_le _ hx
  have key : d2 * (ratTrunc (d * 10 / d2) : ℚ) ≤ d * 10 := by
    calc d2 * (ratTrunc (d * 10 / d2) : ℚ) ≤ d2 * (d * 10 / d2) :=
          mul_le_mul_of_nonneg_left h1 (le_of_lt h2)
      _ = d * 10 := by field_simp
  show 0 ≤ d - d2 * ((ratTrunc (d * 10 / d2) : ℚ) / 10)
  have heq : d2 * ((ratTrunc (d * 10 / d2) : ℚ) / 10)
      = d2 * (ratTrunc (d * 10 / d2) : ℚ) / 10 := by ring
  rw [heq]
  linarith

theorem newPosting_amount_of_nonneg (cr dr : Account) (c : Commodity) (amt : ℚ)
    (h : 0 ≤ amt) : (NewPosting cr dr c amt).amount = amt := by
  unfold NewPosting
  rw [if_neg (not_lt.mpr h)]

theorem accrualTxn_amount (a : Accrual) (p : Posting) (crM drM : Account) (n : Nat)
    (q r : ℚ) (hq : 0 ≤ q) (hqr : 0 ≤ q + r) (i d : Nat) :
    txnAmount (accrualTxn a p crM drM n q r i d) = (if i = 0 then q + r else q) := by
  show ([NewPosting crM drM p.commodity (if i = 0 then q + r else q)].map Posting.amount).sum
      = (if i = 0 then q + r else q)
  by_cases hi : i = 0
  · simp [hi, newPosting_amount_of_nonneg _ _ _ _ hqr]
  · simp [hi, newPosting_amount_of_nonneg _ _ _ _ hq]

theorem multiGo_map_amount (a : Accrual) (p : Posting) (crM drM : Account) (n : Nat)
    (q r : ℚ) (hq : 0 ≤ q) (hqr : 0 ≤ q + r) :
    ∀ (dates : List Nat) (i0 : Nat),
      (mapWithIndexGo (accrualTxn a p crM drM n q r) i0 dates).map txnAmount
        = mapWithIndexGo (fun i _ => if i = 0 then q + r else q) i0 dates := by
  intro dates
  induction dates with
  | nil => intro i0; rfl
  | cons d rest ih =>
    intro i0
    show txnAmount (accrualTxn a p crM drM n q r i0 d)
        :: (mapWithIndexGo (accrualTxn a p crM drM n q r) (i0 + 1) rest).map txnAmount
      = (if i0 = 0 then q + r else q)
        :: mapWithIndexGo (fun i _ => if i = 0 then q + r else q) (i0 + 1) rest
    rw [accrualTxn_amount a p crM drM n q r hq hqr i0 d, ih (i0 + 1)]

theorem indexGo_sum (q r : ℚ) :
    ∀ (dates : List Nat) (i0 : Nat), i0 ≠ 0 →
      (mapWithIndexGo (fun i _ => if i = 0 then q + r else q) i0 dates).sum
        = dates.length * q := by
  intro dates
  induction dates with
  | nil => intro i0 _; simp [mapWithIndexGo]
  | cons d rest ih =>
    intro i0 h0
    have hcons : mapWithIndexGo (fun i _ => if i = 0 then q + r else q) i0 (d :: rest)
        = (if i0 = 0 then q + r else q)
          :: mapWithIndexGo (fun i _ => if i = 0 then q + r else q) (i0 + 1) rest := rfl
    rw [hcons, List.sum_cons, if_neg h0, ih (i0 + 1) (Nat.succ_ne_zero i0),
      List.length_cons]
    push_cast
    ring

theorem indexGo_sum_zero (q r : ℚ) (dates : List Nat) (hne : dates ≠ []) :
    (mapWithIndexGo (fun i _ => if i = 0 then q + r else q) 0 dates).sum
      = dates.length * q + r := by
  cases dates with
  | nil => exact absurd rfl hne
  | cons d rest =>
    have hcons : mapWithIndexGo (fun i _ => if i = 0 then q + r else q) 0 (d :: rest)
        = (if (0:Nat) = 0 then q + r else q)
          :: mapWithIndexGo (fun i _ => if i = 0 then q + r else q) 1 rest := rfl
    rw [hcons, List.sum_cons, if_pos rfl, indexGo_sum q r rest 1 Nat.one_ne_zero,
      List.length_cons]
    push_cast
    ring

/-- C2 (amended): with `dates = series(t0,t1,period)` minus its first element,
`N = len(dates)` and `(q, r) = QuoRem(A, N, 1)` for a non-negative template
amount `A`, the emitted multi-period transaction amounts are `q + r` for the
first date and `q` afterwards, so the multi-period amounts sum exactly to `A`;
the sum over all expanded transactions equals `A` exactly when the single leg
is suppressed (otherwise the single leg books `A` once more). -/
theorem accrual_expand_sums (series : SeriesFn) (a : Accrual) (p : Posting)
    (hp : a.transaction.postings = [p])
    (hA : 0 ≤ p.amount)
    (hne : accrualDates series a ≠ [])
    (hmm : crMultiOf a.account p ≠ drMultiOf a.account p) :
    ((accrualMulti series a p (crMultiOf a.account p) (drMultiOf a.account p)).map txnAmount
        = mapWithIndex (fun i _ => if i = 0
            then (accrualQR series a p).1 + (accrualQR series a p).2
            else (accrualQR series a p).1) (accrualDates series a))
    ∧ sumAmounts (accrualMulti series a p (crMultiOf a.account p) (drMultiOf a.account p))
        = p.amount
    ∧ (crSingleOf a.account p = drSingleOf a.account p →
        sumAmounts (Accrual.Expand series a) = p.amount) := by
  have hlen : 0 < (accrualDates series a).length := List.length_pos.mpr hne
  have hqpos : (0:ℚ) < ((accrualDates series a).length : ℚ) := by exact_mod_cast hlen
  have hq0 : 0 ≤ (accrualQR series a p).1 := quoRem_q_nonneg _ _ hA hqpos
  have hr0 : 0 ≤ (accrualQR series a p).2 := quoRem_r_nonneg _ _ hA hqpos
  have hqr0 : 0 ≤ (accrualQR series a p).1 + (accrualQR series a p).2 := by linarith
  have hmulti : accrualMulti series a p (crMultiOf a.account p) (drMultiOf a.account p)
      = mapWithIndex (accrualTxn a p (crMultiOf a.account p) (drMultiOf a.account p)
          (accrualDates series a).length (accrualQR series a p).1 (accrualQR series a p).2)
        (accrualDates series a) := by
    unfold accrualMulti
    rw [if_neg hmm]
    rfl
  have hmap : (accrualMulti series a p (crMultiOf a.account p)
        (drMultiOf a.account p)).map txnAmount
      = mapWithIndexGo (fun i _ => if i = 0
          then (accrualQR series a p).1 + (accrualQR series a p).2
          else (accrualQR series a p).1) 0 (accrualDates series a) := by
    rw [hmulti]
    exact multiGo_map_amount a p _ _ _ _ _ hq0 hqr0 (accrualDates series a) 0
  have hsum : ((accrualDates series a).length : ℚ) * (accrualQR series a p).1
      + (accrualQR series a p).2 = p.amount := quoRem_sum _ _ 1
  have hsumMulti : sumAmounts (accrualMulti series a p (crMultiOf a.account p)
      (drMultiOf a.account p)) = p.amount := by
    show ((accrualMulti series a p (crMultiOf a.account p)
        (drMultiOf a.account p)).map txnAmount).sum = p.amount
    rw [hmap, indexGo_sum_zero _ _ _ hne]
    linarith
  refine ⟨hmap, hsumMulti, ?_⟩
  intro hss
  have hexp : Accrual.Expand series a
      = accrualMulti series a p (crMultiOf a.account p) (drMultiOf a.account p)
        ++ accrualSingle a p (crSingleOf a.account p) (drSingleOf a.account p) := by
    unfold Accrual.Expand
    rw [hp]
    rfl
  have hsingle : accrualSingle a p (crSingleOf a.account p) (drSingleOf a.account p) = [] := by
    unfold accrualSingle
    rw [if_pos hss]
  rw [hexp, hsingle, List.append_nil]
  exact hsumMulti

/-- Counterexample for C2 as stated: an accrual whose single leg is emitted.
The multi-period transactions sum to the template amount `1200`, but the sum
across all expanded transactions is `2400`, not the template amount. -/
theorem accrual_expand_total_counterexample :
    sumAmounts (Accrual.Expand sampleSeries
        { range := [], period := Period.months, t0 := 0, t1 := 12,
          account := ⟨AccountType.assets, ['S']⟩,
          transaction := { range := [], date := 0, description := [], tags := [],
                           postings := [{ amount := 1200, value := 0,
                                          credit := ⟨AccountType.assets, ['B']⟩,
                                          debit := ⟨AccountType.expenses, ['E']⟩,
                                          commodity := ⟨['U']⟩, lot := none }] } })
      = 2400
    ∧ ({ range := [], period := Period.months, t0 := 0, t1 := 12,
         account := ⟨AccountType.assets, ['S']⟩,
         transaction := { range := [], date := 0, description := [], tags := [],
                          postings := [{ amount := 1200, value := 0,
                                         credit := ⟨AccountType.assets, ['B']⟩,
                                         debit := ⟨AccountType.expenses, ['E']⟩,
                                         commodity := ⟨['U']⟩, lot := none }] } }
        : Accrual).transaction.postings.headI.amount = 1200
    ∧ (2400 : ℚ) ≠ 1200 := by
  with_unfolding_all decide

/-- Witness for C2: with the split account equal to the credit account the
single leg is suppressed and the whole expansion sums to the template amount. -/
theorem accrual_expand_sums_witness :
    sumAmounts (Accrual.Expand sampleSeries
        { range := [], period := Period.months, t0 := 0, t1 := 12,
          account := ⟨AccountType.assets, ['B']⟩,
          transaction := { range := [], date := 0, description := [], tags := [],
                           postings := [{ amount := 1200, value := 0,
                                          credit := ⟨AccountType.assets, ['B']⟩,
                                          debit := ⟨AccountType.expenses, ['E']⟩,
                                          commodity := ⟨['U']⟩, lot := none }] } })
      = 1200 := by
  have h := (accrual_expand_sums sampleSeries
      { range := [], period := Period.months, t0 := 0, t1 := 12,
        account := ⟨AccountType.assets, ['B']⟩,
        transaction := { range := [], date := 0, description := [], tags := [],
                         postings := [{ amount := 1200, value := 0,
                                        credit := ⟨AccountType.assets, ['B']⟩,
                                        debit := ⟨AccountType.expenses, ['E']⟩,
                                        commodity := ⟨['U']⟩, lot := none }] } }
      { amount := 1200, value := 0,
        credit := ⟨AccountType.assets, ['B']⟩,
        debit := ⟨AccountType.expenses, ['E']⟩,
        commodity := ⟨['U']⟩, lot := none }
      rfl (by norm_num) (by decide) (by decide)).2.2 (by decide)
  exact h
